import Mathlib

/-!
Verification development for the OTA knowledge search tool (src/app.py).

The tabular data loaded from the spreadsheet is modelled as a `Frame`
(column names plus rows of optional string cells, where `none` plays the
role of a missing / NaN cell).  Python strings are modelled as Lean
`String`; `str.lower()` is modelled by `lowerC` (ASCII case folding),
`str.strip()` by `strTrim` (the usual whitespace characters), and the
substring test `a in b` by `strContains`.
-/

/-- Whitespace test used by the Python `strip` / `\s` constructs
(space, tab, newline, carriage return). -/
def isWsC (c : Char) : Bool :=
  c == ' ' || c == '\t' || c == '\n' || c == '\r'

/-- ASCII lower-casing of one character, the model of Python `str.lower()`
restricted to the ASCII range that the data uses. -/
def lowerC : Char → Char
  | 'A' => 'a'
  | 'B' => 'b'
  | 'C' => 'c'
  | 'D' => 'd'
  | 'E' => 'e'
  | 'F' => 'f'
  | 'G' => 'g'
  | 'H' => 'h'
  | 'I' => 'i'
  | 'J' => 'j'
  | 'K' => 'k'
  | 'L' => 'l'
  | 'M' => 'm'
  | 'N' => 'n'
  | 'O' => 'o'
  | 'P' => 'p'
  | 'Q' => 'q'
  | 'R' => 'r'
  | 'S' => 's'
  | 'T' => 't'
  | 'U' => 'u'
  | 'V' => 'v'
  | 'W' => 'w'
  | 'X' => 'x'
  | 'Y' => 'y'
  | 'Z' => 'z'
  | c => c

/-- Model of Python `str.lower()`. -/
def strLower (s : String) : String := String.mk (s.data.map lowerC)

/-- Drop leading and trailing whitespace from a character list. -/
def trimL (l : List Char) : List Char :=
  ((l.dropWhile isWsC).reverse.dropWhile isWsC).reverse

/-- Model of Python `str.strip()`. -/
def strTrim (s : String) : String := String.mk (trimL s.data)

/-- Does the second list start with the first one? -/
def startsWithL : List Char → List Char → Bool
  | [], _ => true
  | _ :: _, [] => false
  | a :: l1, b :: l2 => a == b && startsWithL l1 l2

/-- Contiguous-sublist test on character lists (needle, haystack). -/
def hasSubL (needle : List Char) : List Char → Bool
  | [] => needle.isEmpty
  | c :: cs => startsWithL needle (c :: cs) || hasSubL needle cs

/-- Model of the Python substring test `needle in hay`. -/
def strContains (hay needle : String) : Bool := hasSubL needle.data hay.data

/-- The OTA-name filter of src/app.py lines 90-95: the typed query is
stripped; a non-empty query keeps exactly the candidates whose lower-cased
form contains the lower-cased query, an empty query keeps everything. -/
def matchesFor (rawQuery : String) (otaList : List String) : List String :=
  let query := strTrim rawQuery
  if query = "" then otaList
  else otaList.filter (fun o => strContains (strLower o) (strLower query))

/-- Fuel-indexed left-to-right single-pattern replacement on character
lists; the public wrapper `replaceAllL` supplies enough fuel. -/
def replaceFuel : Nat → List Char → List Char → List Char → List Char
  | 0, _, _, l => l
  | _ + 1, _, _, [] => []
  | n + 1, pat, rep, c :: cs =>
    if startsWithL pat (c :: cs) && !pat.isEmpty then
      rep ++ replaceFuel n pat rep ((c :: cs).drop pat.length)
    else
      c :: replaceFuel n pat rep cs

/-- Replace every non-overlapping occurrence of `pat` by `rep`, scanning
left to right, the model of Python `str.replace`. -/
def replaceAllL (pat rep l : List Char) : List Char := replaceFuel l.length pat rep l

/-- The ordered replacement chain of the NameNormalizer: " dot " to ".",
then " dotcom" to ".com", " dot com" to ".com", " con" to ".com" and
" coma" to ".com", each rule working on the output of the earlier
ones. -/
def normStage (l : List Char) : List Char :=
  replaceAllL (" coma").data (".com").data
    (replaceAllL (" con").data (".com").data
      (replaceAllL (" dot com").data (".com").data
        (replaceAllL (" dotcom").data (".com").data
          (replaceAllL (" dot ").data (".").data l))))

/-- Modelled from the spec: the NameNormalizer function of spec section
4.2 (called `normalizeName` here because Mathlib already takes the shorter
name) is not present in src/app.py, which matches by plain
lower-cased substring; per the spec it lower-cases and trims the input,
applies the ordered literal replacements of `normStage` and finally
removes all remaining whitespace. -/
def normalizeName (s : String) : String :=
  String.mk ((normStage (trimL (s.data.map lowerC))).filter (fun c => !isWsC c))

/-- Modelled from the spec: the lookup glue `findMatches` of spec section
4.3 (src/app.py filters by lower-cased substring instead): an empty query
returns all candidates, otherwise the candidates whose normalized form
contains the normalized query, in their original order. -/
def findMatches (query : String) (candidates : List String) : List String :=
  if query = "" then candidates
  else candidates.filter (fun c => strContains (normalizeName c) (normalizeName query))


/-- One spreadsheet row: column name to optional cell value (`none`
models a missing / NaN cell). -/
abbrev Row : Type := List (String × Option String)

/-- Cell access by column name (first matching column), the model of
`row.get(c)` / `row[c]` in src/app.py. -/
def rowGet : Row → String → Option String
  | ([] : List (String × Option String)), _ => none
  | e :: t, c => if e.1 = c then e.2 else rowGet t c

/-- The loaded spreadsheet: the column names and the rows. -/
structure Frame where
  cols : List String
  rows : List Row

/-- Column-name detection of src/app.py line 74: the columns whose
lower-cased name is one of the accepted aliases. -/
def possible_ota_cols (cols : List String) : List String :=
  cols.filter (fun c =>
    decide (strLower c ∈ (["ota", "ota name", "ota_name", "channel", "channel name"] : List String)))

/-- src/app.py line 75: the first alias match, else the first column. -/
def otaColOf (cols : List String) : String :=
  match possible_ota_cols cols with
  | c :: _ => c
  | [] => cols.headD ("")

/-- src/app.py line 77: is there a column literally named "category"
(case-insensitively)? -/
def hasCategoryCol (cols : List String) : Bool :=
  cols.any (fun c => decide (strLower c = "category"))

/-- src/app.py line 78: the first column whose lower-cased name is
"category" (only consulted when `hasCategoryCol` holds). -/
def theCategoryCol (cols : List String) : String :=
  (cols.filter (fun c => decide (strLower c = "category"))).headD ("")

/-- src/app.py line 82: in the layout without a Category column every
column other than the OTA-name column counts as a category column. -/
def categoryColsOf (cols : List String) : List String :=
  cols.filter (fun c => decide (¬ c = otaColOf cols))

/-- pandas `astype(str)` on an optional cell: a missing value prints as
"nan". -/
def cellStr : Option String → String
  | none => "nan"
  | some s => s

/-- Row selection of src/app.py lines 110 and 117: the rows whose
stripped, lower-cased name cell equals the lower-cased (pre-stripped)
query name. -/
def matchingRows (f : Frame) (o : String) : List Row :=
  f.rows.filter (fun r =>
    decide (strLower (strTrim (cellStr (rowGet r (otaColOf f.cols)))) = strLower o))

/-- The cell values that src/app.py line 126 treats as absent. -/
def badVals : List String := ["", "na", "n/a", "none", "no", "0"]

/-- src/app.py lines 123-127: a cell counts as content when it is
non-null and its stripped lower-cased form is none of `badVals`. -/
def goodVal : Option String → Bool
  | none => false
  | some v => !(decide (strLower (strTrim v) ∈ badVals))

/-- The category columns of a single row that carry content
(src/app.py lines 121-128). -/
def availFromRow (catCols : List String) (r : Row) : List String :=
  catCols.filter (fun c => goodVal (rowGet r c))

/-- Keep the first occurrence of every element (pandas `unique`). -/
def dedupFirstAux : List String → List String → List String
  | _, [] => []
  | seen, x :: xs =>
    if decide (x ∈ seen) then dedupFirstAux seen xs
    else x :: dedupFirstAux (x :: seen) xs

/-- Keep the first occurrence of every element (pandas `unique`). -/
def dedupFirst (l : List String) : List String := dedupFirstAux [] l

/-- src/app.py lines 107-128, `get_available_categories_for_ota`: with a
Category column, the distinct stripped category values over all rows of
the OTA; without one, the category columns whose cell in the first
matching row carries content; an unknown OTA yields the empty list. -/
def get_available_categories_for_ota (f : Frame) (ota : String) : List String :=
  let o := strTrim ota
  if hasCategoryCol f.cols then
    let rows := matchingRows f o
    if rows.isEmpty then []
    else dedupFirst (rows.filterMap (fun r => (rowGet r (theCategoryCol f.cols)).map strTrim))
  else
    match matchingRows f o with
    | ([] : List Row) => []
    | r :: _ => availFromRow (categoryColsOf f.cols) r

/-- src/app.py lines 134-145: canonicalize one raw category label onto
the fixed category names. -/
def canonCategory (a : String) : String :=
  let aLow := strLower (strTrim a)
  if strContains aLow ("setup") then "Setup details"
  else if aLow = "ari" ∨ aLow = "a.r.i" then "ARI"
  else if strContains aLow ("reserv") then "Reservations"
  else a

/-- The set built by src/app.py lines 134-145, modelled as the list of
first occurrences of the canonicalized labels. -/
def normalizedAvailable (l : List String) : List String :=
  dedupFirst (l.map canonCategory)

/-- The two reachable render states of src/app.py lines 97-101: the
"no OTA matches found" warning (the script stops there), or the
selection widget over a non-empty match list. -/
inductive UIState
  | noMatchWarning : UIState
  | selectionUI : List String → UIState

/-- src/app.py lines 92-101 as a state function: empty match list gives
the warning state, otherwise the selection state. -/
def searchUI (rawQuery : String) (otaList : List String) : UIState :=
  let m := matchesFor rawQuery otaList
  if m.isEmpty then UIState.noMatchWarning else UIState.selectionUI m

/-- Key characters of the equals-form token: letters, digits,
underscore, hyphen. -/
def keyCharEq (c : Char) : Bool := c.isAlphanum || c == '_' || c == '-'

/-- Key characters of the colon-form token: the equals-form ones plus
the space. -/
def keyCharColon (c : Char) : Bool := keyCharEq c || c == ' '

/-- Skip leading whitespace. -/
def dropWs (l : List Char) : List Char := l.dropWhile isWsC

/-- Read a value run: one or more characters up to a semicolon, comma or
newline terminator; returns the run and the remaining input. -/
def takeValue : List Char → List Char × List Char
  | [] => ([], [])
  | c :: cs =>
    if c == ';' || c == ',' || c == '\n' then ([], c :: cs)
    else
      let p := takeValue cs
      (c :: p.1, p.2)

/-- Lower-case and trim a key run into the stored key. -/
def mkKey (l : List Char) : String := strLower (strTrim (String.mk l))

/-- Trim a value run into the stored value. -/
def mkVal (l : List Char) : String := strTrim (String.mk l)

/-- Modelled from the spec: the equals-form pass of the
KeyValueExtractor (spec section 4.1, step 1) is not present in
src/app.py; scanning left to right, a token is a maximal run of key
characters, optional whitespace, an equals sign, optional whitespace and
a non-empty value run; on a match the scan resumes after the value,
otherwise it advances one character.  The fuel argument is the length of
the scanned text, which every step strictly decreases. -/
def scanEqFuel : Nat → List Char → List (String × String)
  | 0, _ => []
  | _ + 1, [] => []
  | n + 1, c :: cs =>
    if keyCharEq c then
      match dropWs ((c :: cs).dropWhile keyCharEq) with
      | d :: afterEq =>
        if d = '=' then
          let p := takeValue (dropWs afterEq)
          if p.1.isEmpty then scanEqFuel n cs
          else (mkKey ((c :: cs).takeWhile keyCharEq), mkVal p.1) :: scanEqFuel n p.2
        else scanEqFuel n cs
      | [] => scanEqFuel n cs
    else scanEqFuel n cs

/-- The equals-form matches of a text, in scan order. -/
def scanEq (l : List Char) : List (String × String) := scanEqFuel l.length l

/-- Lazy colon-form key search: extend the accumulated (reversed) key
one character at a time, and before each extension test whether optional
whitespace followed by a colon comes next. -/
def goColon : List Char → List Char → Option (List Char × List Char)
  | _, [] => none
  | accRev, d :: ds =>
    match dropWs (d :: ds) with
    | e :: afterColon =>
      if e = ':' then some (accRev.reverse, afterColon)
      else if keyCharColon d then goColon (d :: accRev) ds else none
    | [] => if keyCharColon d then goColon (d :: accRev) ds else none

/-- Modelled from the spec: the colon-form pass of the KeyValueExtractor
(spec section 4.1, step 2) is not present in src/app.py; a token is a
shortest (non-greedy) run of key characters, optional whitespace, a
colon, optional whitespace and a non-empty value run, with the comma
treated as a value terminator. -/
def scanColonFuel : Nat → List Char → List (String × String)
  | 0, _ => []
  | _ + 1, [] => []
  | n + 1, c :: cs =>
    match (if keyCharColon c then goColon [c] cs else none) with
    | some (key, afterColon) =>
      let p := takeValue (dropWs afterColon)
      if p.1.isEmpty then scanColonFuel n cs
      else (mkKey key, mkVal p.1) :: scanColonFuel n p.2
    | none => scanColonFuel n cs

/-- The colon-form matches of a text, in scan order. -/
def scanColon (l : List Char) : List (String × String) := scanColonFuel l.length l

/-- First-position lookup in the ordered result mapping. -/
def lookupA : List (String × String) → String → Option String
  | [], _ => none
  | e :: t, k => if e.1 = k then some e.2 else lookupA t k

/-- Record a binding, overwriting an existing binding of the same key in
place (the equals-form pass policy). -/
def insertOverwrite : List (String × String) → String × String → List (String × String)
  | [], kv => [kv]
  | e :: t, kv => if e.1 = kv.1 then (e.1, kv.2) :: t else e :: insertOverwrite t kv

/-- Record a binding only when its key is not already bound (the
colon-form pass policy). -/
def insertIfAbsent (m : List (String × String)) (kv : String × String) :
    List (String × String) :=
  match lookupA m kv.1 with
  | some _ => m
  | none => m ++ [kv]

/-- Modelled from the spec: the result of the equals-form pass of
`extract` (spec section 4.1, step 1). -/
def eqPass (text : String) : List (String × String) :=
  (scanEq text.data).foldl insertOverwrite []

/-- Modelled from the spec: the KeyValueExtractor `extract` (spec
section 4.1), absent from src/app.py: the equals-form pass records (and
overwrites) bindings, then the colon-form pass adds a binding only when
its key is not already present. -/
def extract (text : String) : List (String × String) :=
  (scanColon text.data).foldl insertIfAbsent (eqPass text)


/-- A text with neither an equals sign nor a colon (undelimited input). -/
def noDelims (s : String) : Bool :=
  s.data.all (fun c => !(c == '=') && !(c == ':'))

/-- A concrete row named X with an empty Setup cell. -/
def rowXnone : Row := [("OTA", some ("X")), ("Setup details", none)]

/-- A concrete row named X whose Setup cell carries content. -/
def rowXyes : Row := [("OTA", some ("X")), ("Setup details", some ("yes"))]

/-- A concrete column-per-category frame with two rows for the same
OTA name. -/
def frameTwoRows : Frame := Frame.mk (["OTA", "Setup details"]) ([rowXnone, rowXyes])

/-- The same frame restricted to its second row. -/
def frameOneRow : Frame := Frame.mk (["OTA", "Setup details"]) ([rowXyes])

/-- A concrete Category-column row. -/
def rowCat1 : Row := [("OTA", some ("X")), ("Category", some ("Res ")), ("Detail", some ("d1"))]

/-- A second Category-column row for the same OTA name. -/
def rowCat2 : Row := [("OTA", some ("X")), ("Category", some ("Setup")), ("Detail", some ("d2"))]

/-- A concrete Category-column frame with two rows for the same OTA
name. -/
def frameCat : Frame := Frame.mk (["OTA", "Category", "Detail"]) ([rowCat1, rowCat2])

/-- Claim C1, counterexample: the filter of src/app.py compares plain
lower-cased strings, not normalized forms; for the query
"booking dot com" the candidate "Booking.com" has a normalized form that
contains the normalized query, yet the filter drops it. -/
theorem C1_counterexample :
    matchesFor ("booking dot com") (["Booking.com"]) = [] ∧
    normalizeName ("booking dot com") = "booking.com" ∧
    strContains (normalizeName ("Booking.com")) (normalizeName ("booking dot com")) = true := by
  refine ⟨by decide, by decide, by decide⟩

/-- Claim C1 (amended): for every query that is non-empty after
stripping, the filter returns exactly the candidates whose lower-cased
form contains the stripped, lower-cased query as a substring, in their
original relative order; in particular the query "book" over
["Agoda", "Booking.com"] returns exactly ["Booking.com"]. -/
theorem C1_amended (q : String) (l : List String) (h : strTrim q ≠ "") :
    matchesFor q l = l.filter (fun o => strContains (strLower o) (strLower (strTrim q))) ∧
    matchesFor ("book") (["Agoda", "Booking.com"]) = ["Booking.com"] := by
  refine ⟨?_, by decide⟩
  simp only [matchesFor, if_neg h]

/-- Claim C1 (amended), witness at the concrete query "book". -/
theorem C1_amended_witness :
    matchesFor ("book") (["Agoda", "Booking.com"]) =
      (["Agoda", "Booking.com"] : List String).filter
        (fun o => strContains (strLower o) (strLower (strTrim ("book")))) ∧
    matchesFor ("book") (["Agoda", "Booking.com"]) = ["Booking.com"] :=
  C1_amended ("book") (["Agoda", "Booking.com"]) (by decide)

/-- Claim C2: the spec-modelled normalization lower-cases and trims,
applies the ordered replacements and removes the remaining whitespace
(definition `normalizeName`); it maps "Booking Dot Com" to
"booking.com", and the spec-modelled lookup applies it identically to
the query and to every candidate before the substring comparison. -/
theorem C2_normalizeName (q : String) (cands : List String) (h : q ≠ "") :
    normalizeName ("Booking Dot Com") = "booking.com" ∧
    findMatches q cands =
      cands.filter (fun c => strContains (normalizeName c) (normalizeName q)) := by
  refine ⟨by decide, ?_⟩
  simp only [findMatches, if_neg h]

/-- Claim C2, witness at the concrete query "book". -/
theorem C2_normalizeName_witness :
    normalizeName ("Booking Dot Com") = "booking.com" ∧
    findMatches ("book") (["Agoda", "Booking.com"]) =
      (["Agoda", "Booking.com"] : List String).filter
        (fun c => strContains (normalizeName c) (normalizeName ("book"))) :=
  C2_normalizeName ("book") (["Agoda", "Booking.com"]) (by decide)

/-- Claim C5, counterexample: the alias set of src/app.py line 74 is
"ota", "ota name", "ota_name", "channel", "channel name"; the column
name "OTAName" (lower-cased "otaname") matches no alias, so it is only
picked up by the first-column fallback, never by alias matching, while
"OTA Name" is matched. -/
theorem C5_counterexample :
    possible_ota_cols (["Detail", "OTAName"]) = [] ∧
    otaColOf (["Detail", "OTAName"]) = "Detail" ∧
    possible_ota_cols (["Detail", "OTA Name"]) = ["OTA Name"] ∧
    otaColOf (["Detail", "OTA Name"]) = "OTA Name" := by
  refine ⟨by decide, by decide, by decide, by decide⟩

/-- Claim C5 (amended): the name column is resolved by case-insensitive
matching against the aliases "ota", "ota name", "ota_name", "channel"
and "channel name"; "OTA Name" is accepted this way, "OTAName" is not
(it can only become the name column through the first-column
fallback). -/
theorem C5_amended (cols : List String) (c : String) :
    (c ∈ possible_ota_cols cols ↔
      c ∈ cols ∧
        strLower c ∈ (["ota", "ota name", "ota_name", "channel", "channel name"] : List String)) ∧
    possible_ota_cols (["Detail", "OTA Name"]) = ["OTA Name"] ∧
    possible_ota_cols (["Detail", "OTAName"]) = [] := by
  refine ⟨?_, by decide, by decide⟩
  simp [possible_ota_cols, List.mem_filter]

/-- Claim C6: whenever the filtered match list is empty the script
renders the dedicated warning state (a value, not an exception), and for
a non-empty candidate list that state is distinct from the state reached
with no query entered, which shows the full candidate list. -/
theorem C6_empty_result_state (q : String) (l : List String) (h : l ≠ []) :
    (matchesFor q l = [] → searchUI q l = UIState.noMatchWarning) ∧
    searchUI ("") l = UIState.selectionUI l ∧
    UIState.noMatchWarning ≠ UIState.selectionUI l := by
  have hm : matchesFor ("") l = l := by
    simp [matchesFor, strTrim, trimL]
  refine ⟨?_, ?_, ?_⟩
  · intro he
    simp [searchUI, he]
  · cases l with
    | nil => exact absurd rfl h
    | cons a t => simp [searchUI, hm]
  · intro hcontra
    exact UIState.noConfusion hcontra

/-- Claim C6, witness: the query "zzz" over the candidate list
["Agoda"] reaches the warning state, while the empty query shows the
selection state. -/
theorem C6_empty_result_state_witness :
    searchUI ("zzz") (["Agoda"]) = UIState.noMatchWarning ∧
    searchUI ("") (["Agoda"]) = UIState.selectionUI (["Agoda"]) :=
  ⟨(C6_empty_result_state ("zzz") (["Agoda"]) (by decide)).1 (by decide),
   (C6_empty_result_state ("zzz") (["Agoda"]) (by decide)).2.1⟩

/-- Claim C9: a raw category label whose stripped lower-cased form
contains "setup" is canonicalized to "Setup details"; failing that, one
equal to "ari" or "a.r.i" becomes "ARI"; failing that, one containing
"reserv" becomes "Reservations"; any other label is kept unchanged. -/
theorem C9_canonCategory (a : String) :
    (strContains (strLower (strTrim a)) ("setup") = true →
       canonCategory a = "Setup details") ∧
    (strContains (strLower (strTrim a)) ("setup") = false →
       (strLower (strTrim a) = "ari" ∨ strLower (strTrim a) = "a.r.i") →
       canonCategory a = "ARI") ∧
    (strContains (strLower (strTrim a)) ("setup") = false →
       ¬ strLower (strTrim a) = "ari" → ¬ strLower (strTrim a) = "a.r.i" →
       strContains (strLower (strTrim a)) ("reserv") = true →
       canonCategory a = "Reservations") ∧
    (strContains (strLower (strTrim a)) ("setup") = false →
       ¬ strLower (strTrim a) = "ari" → ¬ strLower (strTrim a) = "a.r.i" →
       strContains (strLower (strTrim a)) ("reserv") = false →
       canonCategory a = a) := by
  refine ⟨?_, ?_, ?_, ?_⟩ <;> intros <;> simp_all [canonCategory]

/-- Claim C9, witness: "Setup Details " maps onto "Setup details",
"A.R.I" onto "ARI", "reservation" onto "Reservations" and an unrelated
label is kept. -/
theorem C9_canonCategory_witness :
    canonCategory ("Setup Details ") = "Setup details" ∧
    canonCategory ("A.R.I") = "ARI" ∧
    canonCategory ("reservation") = "Reservations" ∧
    canonCategory ("Pricing") = "Pricing" :=
  ⟨(C9_canonCategory ("Setup Details ")).1 (by decide),
   (C9_canonCategory ("A.R.I")).2.1 (by decide) (Or.inr (by decide)),
   (C9_canonCategory ("reservation")).2.2.1 (by decide) (by decide) (by decide) (by decide),
   (C9_canonCategory ("Pricing")).2.2.2 (by decide) (by decide) (by decide) (by decide)⟩

/-- A binding found in the left part of an appended mapping is found in
the whole mapping. -/
theorem lookupA_append_some (m l2 : List (String × String)) (k v : String)
    (h : lookupA m k = some v) : lookupA (m ++ l2) k = some v := by
  induction m with
  | nil => simp [lookupA] at h
  | cons e t ih =>
    by_cases he : e.1 = k
    · simp [lookupA, he] at h ⊢
      exact h
    · simp [lookupA, he] at h ⊢
      exact ih h

/-- `insertIfAbsent` never changes an existing binding. -/
theorem lookupA_insertIfAbsent (m : List (String × String)) (kv : String × String)
    (k v : String) (h : lookupA m k = some v) :
    lookupA (insertIfAbsent m kv) k = some v := by
  unfold insertIfAbsent
  cases hl : lookupA m kv.1 with
  | some w => exact h
  | none => exact lookupA_append_some m [kv] k v h

/-- Folding `insertIfAbsent` over any match list never changes an
existing binding. -/
theorem lookupA_foldl_insertIfAbsent (kvs : List (String × String))
    (m : List (String × String)) (k v : String) (h : lookupA m k = some v) :
    lookupA (kvs.foldl insertIfAbsent m) k = some v := by
  induction kvs generalizing m with
  | nil => exact h
  | cons kv tl ih => exact ih _ (lookupA_insertIfAbsent m kv k v h)

/-- Claim C3: a key/value binding produced by the equals-form pass is
never overwritten by the colon-form pass: every binding of `eqPass` is
still the binding of the same key in the final `extract` mapping,
because colon-form matches are inserted only when the key is absent. -/
theorem C3_equals_precedence (t : String) (k v : String)
    (h : lookupA (eqPass t) k = some v) :
    lookupA (extract t) k = some v :=
  lookupA_foldl_insertIfAbsent (scanColon t.data) (eqPass t) k v h

/-- Claim C3, witness: in "a=1; a: 2" the equals-form pass binds key "a"
to "1", and the colon-form match of the same key does not overwrite
it. -/
theorem C3_equals_precedence_witness :
    lookupA (eqPass ("a=1; a: 2")) ("a") = some ("1") ∧
    lookupA (extract ("a=1; a: 2")) ("a") = some ("1") :=
  ⟨by decide, C3_equals_precedence ("a=1; a: 2") ("a") ("1") (by decide)⟩

/-- Every element survives first-occurrence deduplication unless it was
already seen. -/
theorem mem_dedupFirstAux (l : List String) : ∀ (seen : List String) (a : String),
    a ∈ l → a ∈ seen ∨ a ∈ dedupFirstAux seen l := by
  induction l with
  | nil =>
    intro seen a h
    exact absurd h (List.not_mem_nil a)
  | cons x xs ih =>
    intro seen a h
    rcases List.mem_cons.mp h with rfl | hmem
    · by_cases hx : a ∈ seen
      · exact Or.inl hx
      · simp [dedupFirstAux, hx]
    · by_cases hx : x ∈ seen
      · rcases ih seen a hmem with hs | hd
        · exact Or.inl hs
        · have hrw : dedupFirstAux seen (x :: xs) = dedupFirstAux seen xs := by
            simp [dedupFirstAux, hx]
          rw [hrw]
          exact Or.inr hd
      · rcases ih (x :: seen) a hmem with hs | hd
        · rcases List.mem_cons.mp hs with rfl | hs2
          · simp [dedupFirstAux, hx]
          · exact Or.inl hs2
        · have hrw : dedupFirstAux seen (x :: xs) = x :: dedupFirstAux (x :: seen) xs := by
            simp [dedupFirstAux, hx]
          rw [hrw]
          exact Or.inr (List.mem_cons_of_mem x hd)

/-- Every element of a list survives first-occurrence deduplication. -/
theorem mem_dedupFirst (l : List String) (a : String) (h : a ∈ l) :
    a ∈ dedupFirst l := by
  rcases mem_dedupFirstAux l [] a h with hs | hd
  · exact absurd hs (List.not_mem_nil a)
  · exact hd

/-- Claim C4, counterexample: in the column-per-category layout two rows
share the name X; the Setup cell of the second matching row carries
content, yet the category lookup returns the empty list because it reads
only the first matching row (src/app.py line 120, rows.iloc[0]). -/
theorem C4_counterexample :
    matchingRows frameTwoRows ("X") = [rowXnone, rowXyes] ∧
    goodVal (rowGet rowXyes ("Setup details")) = true ∧
    get_available_categories_for_ota frameTwoRows ("X") = [] ∧
    get_available_categories_for_ota frameOneRow ("X") = ["Setup details"] := by
  refine ⟨by decide, by decide, by decide, by decide⟩

/-- Claim C4 (amended): with a Category column every matching row
contributes its category value to the lookup result, but in the
column-per-category layout only the first matching row is consulted
(one row per OTA is expected there). -/
theorem C4_amended (f : Frame) (ota v : String) (r : Row) (rest : List Row) :
    (hasCategoryCol f.cols = true → r ∈ matchingRows f (strTrim ota) →
       rowGet r (theCategoryCol f.cols) = some v →
       strTrim v ∈ get_available_categories_for_ota f ota) ∧
    (hasCategoryCol f.cols = false → matchingRows f (strTrim ota) = r :: rest →
       get_available_categories_for_ota f ota = availFromRow (categoryColsOf f.cols) r) := by
  constructor
  · intro h1 h2 h3
    have hne : (matchingRows f (strTrim ota)).isEmpty = false := by
      cases hmr : matchingRows f (strTrim ota) with
      | nil =>
        rw [hmr] at h2
        exact absurd h2 (List.not_mem_nil r)
      | cons b t => rfl
    simp only [get_available_categories_for_ota, h1, if_true, hne, Bool.false_eq_true,
      if_false]
    apply mem_dedupFirst
    apply List.mem_filterMap.mpr
    exact ⟨r, h2, by rw [h3]; rfl⟩
  · intro h1 h2
    simp [get_available_categories_for_ota, h1, h2]

/-- Claim C4 (amended), witness: in the Category layout the value of the
second matching row appears in the result; in the column-per-category
layout the result is computed from the first matching row alone. -/
theorem C4_amended_witness :
    strTrim ("Setup") ∈ get_available_categories_for_ota frameCat ("X") ∧
    get_available_categories_for_ota frameTwoRows ("X") =
      availFromRow (categoryColsOf frameTwoRows.cols) rowXnone :=
  ⟨(C4_amended frameCat ("X") ("Setup") rowCat2 []).1 (by decide) (by decide) (by decide),
   (C4_amended frameTwoRows ("X") ("") rowXnone [rowXyes]).2 (by decide) (by decide)⟩

/-- Claim C10: in the layout without a Category column, a column is an
available category for an OTA exactly when it is one of the non-name
columns and the first matching row holds a non-null value there whose
stripped lower-cased form is none of "", "na", "n/a", "none", "no", "0";
with no matching row the list is empty. -/
theorem C10_no_category_layout (f : Frame) (ota : String) (r : Row) (rest : List Row)
    (c : String) (h1 : hasCategoryCol f.cols = false)
    (h2 : matchingRows f (strTrim ota) = r :: rest) :
    get_available_categories_for_ota f ota = availFromRow (categoryColsOf f.cols) r ∧
    (c ∈ get_available_categories_for_ota f ota ↔
      c ∈ categoryColsOf f.cols ∧
        ∃ v, rowGet r c = some v ∧ ¬ strLower (strTrim v) ∈ badVals) ∧
    (∀ f2 : Frame, ∀ o2 : String, hasCategoryCol f2.cols = false →
       matchingRows f2 (strTrim o2) = [] →
       get_available_categories_for_ota f2 o2 = []) := by
  have hmain : get_available_categories_for_ota f ota =
      availFromRow (categoryColsOf f.cols) r := by
    simp [get_available_categories_for_ota, h1, h2]
  refine ⟨hmain, ?_, ?_⟩
  · rw [hmain]
    constructor
    · intro hc
      rcases List.mem_filter.mp hc with ⟨hcc, hgv⟩
      refine ⟨hcc, ?_⟩
      cases hv : rowGet r c with
      | none =>
        rw [hv] at hgv
        simp [goodVal] at hgv
      | some v =>
        rw [hv] at hgv
        refine ⟨v, rfl, ?_⟩
        simpa [goodVal] using hgv
    · rintro ⟨hcc, v, hv, hbad⟩
      apply List.mem_filter.mpr
      refine ⟨hcc, ?_⟩
      rw [hv]
      simpa [goodVal] using hbad
  · intro f2 o2 hc2 hm2
    simp [get_available_categories_for_ota, hc2, hm2]

/-- Claim C10, witness: over the two-row frame the available categories
come from the first matching row, whose Setup cell is empty, so "Setup
details" is not available. -/
theorem C10_no_category_layout_witness :
    get_available_categories_for_ota frameTwoRows ("X") =
      availFromRow (categoryColsOf frameTwoRows.cols) rowXnone ∧
    (("Setup details") ∈ get_available_categories_for_ota frameTwoRows ("X") ↔
      ("Setup details") ∈ categoryColsOf frameTwoRows.cols ∧
        ∃ v, rowGet rowXnone ("Setup details") = some v ∧
          ¬ strLower (strTrim v) ∈ badVals) :=
  ⟨(C10_no_category_layout frameTwoRows ("X") rowXnone [rowXyes] ("Setup details")
      (by decide) (by decide)).1,
   (C10_no_category_layout frameTwoRows ("X") rowXnone [rowXyes] ("Setup details")
      (by decide) (by decide)).2.1⟩

/-- Members of a `dropWhile` result are members of the input. -/
theorem mem_of_mem_dropWhile (p : Char → Bool) (l : List Char) (a : Char)
    (h : a ∈ l.dropWhile p) : a ∈ l := by
  induction l with
  | nil => simp at h
  | cons c cs ih =>
    by_cases hp : p c = true
    · rw [List.dropWhile_cons_of_pos hp] at h
      exact List.mem_cons_of_mem c (ih h)
    · rw [List.dropWhile_cons_of_neg hp] at h
      exact h

/-- Members of a `dropWs` result are members of the input. -/
theorem mem_of_mem_dropWs (l : List Char) (a : Char) (h : a ∈ dropWs l) : a ∈ l :=
  mem_of_mem_dropWhile isWsC l a h

/-- A text without an equals sign yields no equals-form match. -/
theorem scanEqFuel_eq_nil (n : Nat) : ∀ l : List Char, (∀ c ∈ l, ¬ c = '=') →
    scanEqFuel n l = [] := by
  induction n with
  | zero =>
    intro l h
    rfl
  | succ n ih =>
    intro l h
    cases l with
    | nil => rfl
    | cons c cs =>
      have htail : ∀ a ∈ cs, ¬ a = '=' := fun a ha => h a (List.mem_cons_of_mem c ha)
      by_cases hk : keyCharEq c = true
      · cases hd : dropWs ((c :: cs).dropWhile keyCharEq) with
        | nil =>
          simp only [scanEqFuel, hk, if_true, hd]
          exact ih cs htail
        | cons d ds =>
          have hdm : d ∈ c :: cs :=
            mem_of_mem_dropWhile keyCharEq (c :: cs) d
              (mem_of_mem_dropWs _ d (hd ▸ List.mem_cons_self d ds))
          have hdne : ¬ d = '=' := h d hdm
          simp only [scanEqFuel, hk, if_true, hd, if_neg hdne]
          exact ih cs htail
      · simp only [scanEqFuel, if_neg hk]
        exact ih cs htail

/-- A text without a colon yields no colon-form key match. -/
theorem goColon_eq_none (l : List Char) : ∀ accRev : List Char,
    (∀ c ∈ l, ¬ c = ':') → goColon accRev l = none := by
  induction l with
  | nil =>
    intro accRev h
    rfl
  | cons d ds ih =>
    intro accRev h
    have htail : ∀ a ∈ ds, ¬ a = ':' := fun a ha => h a (List.mem_cons_of_mem d ha)
    have hrec : (if keyCharColon d then goColon (d :: accRev) ds else none) = none := by
      by_cases hk : keyCharColon d = true
      · simp only [hk, if_true]
        exact ih (d :: accRev) htail
      · simp only [if_neg hk]
    cases hd : dropWs (d :: ds) with
    | nil =>
      simp only [goColon, hd]
      exact hrec
    | cons e es =>
      have hene : ¬ e = ':' := h e (mem_of_mem_dropWs _ e (hd ▸ List.mem_cons_self e es))
      simp only [goColon, hd, if_neg hene]
      exact hrec

/-- A text without a colon yields no colon-form match. -/
theorem scanColonFuel_eq_nil (n : Nat) : ∀ l : List Char, (∀ c ∈ l, ¬ c = ':') →
    scanColonFuel n l = [] := by
  induction n with
  | zero =>
    intro l h
    rfl
  | succ n ih =>
    intro l h
    cases l with
    | nil => rfl
    | cons c cs =>
      have htail : ∀ a ∈ cs, ¬ a = ':' := fun a ha => h a (List.mem_cons_of_mem c ha)
      have hg : (if keyCharColon c then goColon [c] cs else none) = none := by
        by_cases hk : keyCharColon c = true
        · simp only [hk, if_true]
          exact goColon_eq_none cs [c] htail
        · simp only [if_neg hk]
      simp only [scanColonFuel, hg]
      exact ih cs htail

/-- Claim C7: the modelled core operations are total functions; an
undelimited text extracts to the empty mapping, an unknown OTA name
yields the empty category list in both layouts, and the name filter
only ever returns candidates of its input list. -/
theorem C7_no_raise_empty_coercion (s : String) (f : Frame) (ota rawq : String)
    (l : List String) (h1 : noDelims s = true)
    (h2 : matchingRows f (strTrim ota) = []) :
    extract s = [] ∧
    get_available_categories_for_ota f ota = [] ∧
    (∀ x ∈ matchesFor rawq l, x ∈ l) := by
  have hchars : ∀ c ∈ s.data, ¬ c = '=' ∧ ¬ c = ':' := by
    intro c hc
    have h3 := (List.all_eq_true.mp h1) c hc
    simpa using h3
  refine ⟨?_, ?_, ?_⟩
  · unfold extract eqPass scanEq scanColon
    rw [scanEqFuel_eq_nil _ _ (fun c hc => (hchars c hc).1),
      scanColonFuel_eq_nil _ _ (fun c hc => (hchars c hc).2)]
    rfl
  · unfold get_available_categories_for_ota
    split
    · simp [h2]
    · simp [h2]
  · intro x hx
    simp only [matchesFor] at hx
    split at hx
    · exact hx
    · exact (List.mem_filter.mp hx).1

/-- Claim C7, witness: a delimiter-free text extracts to nothing and an
unknown OTA over an empty table has no categories. -/
theorem C7_no_raise_empty_coercion_witness :
    extract ("no delimiters here at all") = [] ∧
    get_available_categories_for_ota (Frame.mk (["OTA"]) ([])) ("x") = [] :=
  ⟨(C7_no_raise_empty_coercion ("no delimiters here at all") (Frame.mk (["OTA"]) ([]))
      ("x") ("b") (["Agoda"]) (by decide) (by decide)).1,
   (C7_no_raise_empty_coercion ("no delimiters here at all") (Frame.mk (["OTA"]) ([]))
      ("x") ("b") (["Agoda"]) (by decide) (by decide)).2.1⟩

/-- Lower-casing either fixes a character or lands on a lower-case
letter. -/
theorem lowerC_cases (c : Char) :
    lowerC c = c ∨
      lowerC c ∈ (['a', 'b', 'c', 'd', 'e', 'f', 'g', 'h', 'i', 'j', 'k', 'l', 'm',
        'n', 'o', 'p', 'q', 'r', 's', 't', 'u', 'v', 'w', 'x', 'y', 'z'] : List Char) := by
  unfold lowerC
  split <;> first | exact Or.inl rfl | decide

/-- Lower-case letters are fixed points of lower-casing. -/
theorem lowerC_fix_of_lc :
    ∀ d ∈ (['a', 'b', 'c', 'd', 'e', 'f', 'g', 'h', 'i', 'j', 'k', 'l', 'm',
      'n', 'o', 'p', 'q', 'r', 's', 't', 'u', 'v', 'w', 'x', 'y', 'z'] : List Char),
      lowerC d = d := by decide

/-- Lower-casing one character is idempotent. -/
theorem lowerC_idem (c : Char) : lowerC (lowerC c) = lowerC c := by
  rcases lowerC_cases c with h | h
  · rw [h]
    exact h
  · exact lowerC_fix_of_lc (lowerC c) h

/-- Lower-casing one character preserves whether it is whitespace. -/
theorem isWsC_lowerC (c : Char) : isWsC (lowerC c) = isWsC c := by
  unfold lowerC
  split <;> rfl

/-- A map whose function fixes every member of a list is the identity on
that list. -/
theorem map_eq_self_of (l : List Char) (f : Char → Char) (h : ∀ c ∈ l, f c = c) :
    l.map f = l := by
  induction l with
  | nil => rfl
  | cons c cs ih =>
    simp only [List.map_cons, h c (List.mem_cons_self c cs)]
    rw [ih (fun a ha => h a (List.mem_cons_of_mem c ha))]

/-- `dropWhile` is the identity when no member satisfies the test. -/
theorem dropWhile_eq_self_of (p : Char → Bool) (l : List Char)
    (h : ∀ c ∈ l, p c = false) : l.dropWhile p = l := by
  cases l with
  | nil => rfl
  | cons c cs =>
    exact List.dropWhile_cons_of_neg (by simp [h c (List.mem_cons_self c cs)])

/-- Trimming is the identity on a whitespace-free list. -/
theorem trimL_eq_self_of (l : List Char) (h : ∀ c ∈ l, isWsC c = false) :
    trimL l = l := by
  unfold trimL
  rw [dropWhile_eq_self_of isWsC l h]
  rw [dropWhile_eq_self_of isWsC l.reverse (fun c hc => h c (List.mem_reverse.mp hc))]
  exact List.reverse_reverse l

/-- Members of a trimmed list are members of the original list. -/
theorem mem_of_mem_trimL (l : List Char) (a : Char) (h : a ∈ trimL l) : a ∈ l := by
  unfold trimL at h
  have h1 := List.mem_reverse.mp h
  have h2 := mem_of_mem_dropWhile isWsC _ a h1
  have h3 := List.mem_reverse.mp h2
  exact mem_of_mem_dropWhile isWsC l a h3

/-- Replacement is the identity when the first pattern character occurs
nowhere in the input. -/
theorem replaceFuel_eq_self (pat rep : List Char) (p0 : Char) (pr : List Char)
    (hp : pat = p0 :: pr) : ∀ (n : Nat) (l : List Char), (∀ c ∈ l, ¬ c = p0) →
    replaceFuel n pat rep l = l := by
  intro n
  induction n with
  | zero =>
    intro l h
    rfl
  | succ n ih =>
    intro l h
    cases l with
    | nil => rfl
    | cons c cs =>
      have hc : ¬ c = p0 := h c (List.mem_cons_self c cs)
      have hsw : startsWithL pat (c :: cs) = false := by
        rw [hp]
        show (p0 == c && startsWithL pr cs) = false
        have hb : (p0 == c) = false := beq_eq_false_iff_ne.mpr (fun he => hc he.symm)
        rw [hb, Bool.false_and]
      simp only [replaceFuel, hsw, Bool.false_and, Bool.false_eq_true, if_false,
        List.cons.injEq, true_and]
      exact ih cs (fun a ha => h a (List.mem_cons_of_mem c ha))

/-- A character predicate holding on the replacement string and on the
input holds on every character of the replacement output. -/
theorem mem_of_replaceFuel (pat rep : List Char) (P : Char → Prop)
    (hrep : ∀ c ∈ rep, P c) : ∀ (n : Nat) (l : List Char), (∀ c ∈ l, P c) →
    ∀ c ∈ replaceFuel n pat rep l, P c := by
  intro n
  induction n with
  | zero =>
    intro l h c hc
    exact h c hc
  | succ n ih =>
    intro l h c hc
    cases l with
    | nil => simp [replaceFuel] at hc
    | cons d ds =>
      by_cases hsw : (startsWithL pat (d :: ds) && !pat.isEmpty) = true
      · rw [show replaceFuel (n + 1) pat rep (d :: ds) =
            rep ++ replaceFuel n pat rep ((d :: ds).drop pat.length) from by
          simp [replaceFuel, hsw]] at hc
        rcases List.mem_append.mp hc with hr | hl2
        · exact hrep c hr
        · exact ih ((d :: ds).drop pat.length)
            (fun a ha => h a (List.drop_subset _ _ ha)) c hl2
      · rw [show replaceFuel (n + 1) pat rep (d :: ds) =
            d :: replaceFuel n pat rep ds from by simp [replaceFuel, hsw]] at hc
        rcases List.mem_cons.mp hc with rfl | htl
        · exact h c (List.mem_cons_self c ds)
        · exact ih ds (fun a ha => h a (List.mem_cons_of_mem d ha)) c htl

/-- Characters fixed by lower-casing stay fixed through the replacement
chain (the replacement strings are themselves lower-case). -/
theorem normStage_fix (l : List Char) (h : ∀ c ∈ l, lowerC c = c) :
    ∀ c ∈ normStage l, lowerC c = c := by
  have hdot : ∀ c ∈ (".").data, lowerC c = c := by decide
  have hcom : ∀ c ∈ (".com").data, lowerC c = c := by decide
  unfold normStage replaceAllL
  exact mem_of_replaceFuel _ _ _ hcom _ _
    (mem_of_replaceFuel _ _ _ hcom _ _
      (mem_of_replaceFuel _ _ _ hcom _ _
        (mem_of_replaceFuel _ _ _ hcom _ _
          (mem_of_replaceFuel _ _ _ hdot _ _ h))))

/-- The replacement chain is the identity on a space-free list: every
pattern starts with a space. -/
theorem normStage_eq_self (l : List Char) (h : ∀ c ∈ l, ¬ c = ' ') :
    normStage l = l := by
  unfold normStage replaceAllL
  rw [replaceFuel_eq_self (" dot ").data (".").data ' ' _ rfl _ l h]
  rw [replaceFuel_eq_self (" dotcom").data (".com").data ' ' _ rfl _ l h]
  rw [replaceFuel_eq_self (" dot com").data (".com").data ' ' _ rfl _ l h]
  rw [replaceFuel_eq_self (" con").data (".com").data ' ' _ rfl _ l h]
  rw [replaceFuel_eq_self (" coma").data (".com").data ' ' _ rfl _ l h]

/-- Every character of a normalized name is fixed by lower-casing and is
not whitespace. -/
theorem normalizeName_chars (x : String) :
    ∀ c ∈ (normalizeName x).data, lowerC c = c ∧ isWsC c = false := by
  intro c hc
  have hc2 : c ∈ (normStage (trimL (x.data.map lowerC))).filter (fun c => !isWsC c) := hc
  have hf := List.mem_filter.mp hc2
  constructor
  · refine normStage_fix _ ?_ c hf.1
    intro a ha
    rcases List.mem_map.mp (mem_of_mem_trimL _ a ha) with ⟨b, hb, hba⟩
    rw [← hba]
    exact lowerC_idem b
  · simpa using hf.2

/-- Claim C8: the spec-modelled name normalization is idempotent. -/
theorem C8_normalizeName_idempotent (x : String) :
    normalizeName (normalizeName x) = normalizeName x := by
  have hchars := normalizeName_chars x
  have hmap : (normalizeName x).data.map lowerC = (normalizeName x).data :=
    map_eq_self_of _ _ (fun c hc => (hchars c hc).1)
  have htrim : trimL (normalizeName x).data = (normalizeName x).data :=
    trimL_eq_self_of _ (fun c hc => (hchars c hc).2)
  have hnosp : ∀ c ∈ (normalizeName x).data, ¬ c = ' ' := by
    intro c hc he
    have hw := (hchars c hc).2
    rw [he] at hw
    simp [isWsC] at hw
  have hstage : normStage (normalizeName x).data = (normalizeName x).data :=
    normStage_eq_self _ hnosp
  have hfil : ((normalizeName x).data).filter (fun c => !isWsC c) =
      (normalizeName x).data := by
    apply List.filter_eq_self.mpr
    intro a ha
    simp [(hchars a ha).2]
  show String.mk ((normStage (trimL ((normalizeName x).data.map lowerC))).filter
      (fun c => !isWsC c)) = normalizeName x
  rw [hmap, htrim, hstage, hfil]
